import Mathlib

/-!
Shallow embedding of `topics_assigner.py` (book-topics-assigner).

Strings are modelled as `List Char`.  Pandas scalar cells are modelled by
`PyVal` (`na` for NaN/None, `str` for a string value); a dataframe cell that
may come from a missing column is an `Option PyVal` (`none` = column absent),
read through `rowGet`, which mirrors `row.get(col, "")`.

`BeautifulSoup(raw, "html.parser").get_text(separator=" ", strip=True)` is
modelled by `soupGetText`: the text between tags is split into segments at tag
boundaries, HTML entities occurring in the inputs of interest are decoded,
each segment is stripped, empty segments are dropped and the rest are joined
with single spaces.  Python `str.split()` / `str.strip()` whitespace is
modelled by `pyIsSpace`, which covers the whitespace characters exercised by
the program (space, tab, LF, CR, VT, FF, NBSP).
-/

namespace TopicsAssigner

/-- Characters Python treats as whitespace in `str.split()` / `str.strip()`
(the subset relevant here: space, tab, newline, carriage return, vertical
tab, form feed, no-break space). -/
def pyIsSpace (c : Char) : Bool :=
  c = ' ' || c = '\t' || c = '\n' || c = '\r' ||
  c = Char.ofNat 11 || c = Char.ofNat 12 || c = Char.ofNat 160

/-- Convert a Lean string literal to the `List Char` representation. -/
def chars (s : String) : List Char := s.data

/-- A pandas scalar: `na` models NaN/None, `str` models a string value. -/
inductive PyVal where
  | na : PyVal
  | str : List Char → PyVal
deriving DecidableEq

/-- `pd.notna`. -/
def notna : PyVal → Bool
  | .na => false
  | .str _ => true

/-- Python `f"{v}"` rendering of a scalar (NaN renders as "nan"). -/
def pyStr : PyVal → List Char
  | .na => chars "nan"
  | .str s => s

/-- Python `str.strip()`: drop leading and trailing whitespace. -/
def pyStrip (l : List Char) : List Char :=
  ((l.dropWhile pyIsSpace).reverse.dropWhile pyIsSpace).reverse

/-- Helper for `splitWs`: accumulates the current (reversed) token. -/
def splitWsAux : List Char → List Char → List (List Char)
  | [], cur => if cur = [] then [] else [cur.reverse]
  | c :: rest, cur =>
    if pyIsSpace c then
      if cur = [] then splitWsAux rest []
      else cur.reverse :: splitWsAux rest []
    else splitWsAux rest (c :: cur)

/-- Python `str.split()` with no argument: split on whitespace runs,
discarding empty tokens. -/
def splitWs (l : List Char) : List (List Char) := splitWsAux l []

/-- Python `" ".join(tokens)`. -/
def joinSpace : List (List Char) → List Char
  | [] => []
  | [t] => t
  | t :: t' :: ts => t ++ ' ' :: joinSpace (t' :: ts)

/-- Python `" ".join(s.split())`: collapse whitespace runs to single spaces. -/
def collapseWs (l : List Char) : List Char := joinSpace (splitWs l)

/-- Python `s.replace("\\n", "")`: delete every occurrence of the
two-character sequence backslash-n (left to right, non-overlapping). -/
def removeBackslashN : List Char → List Char
  | '\\' :: 'n' :: rest => removeBackslashN rest
  | c :: rest => c :: removeBackslashN rest
  | [] => []

/-- Python `s.replace("\n", " ").replace("\r", " ")`. -/
def mapNewlines (l : List Char) : List Char :=
  l.map (fun c => if c = '\n' ∨ c = '\r' then ' ' else c)

/-- HTML entity decoding for the entities exercised by the program
(`&nbsp;`, `&#10;`, `&amp;`, `&lt;`, `&gt;`); any other text passes
through unchanged. -/
def decodeEntities : List Char → List Char
  | '&' :: 'n' :: 'b' :: 's' :: 'p' :: ';' :: rest =>
      Char.ofNat 160 :: decodeEntities rest
  | '&' :: '#' :: '1' :: '0' :: ';' :: rest => '\n' :: decodeEntities rest
  | '&' :: 'a' :: 'm' :: 'p' :: ';' :: rest => '&' :: decodeEntities rest
  | '&' :: 'l' :: 't' :: ';' :: rest => '<' :: decodeEntities rest
  | '&' :: 'g' :: 't' :: ';' :: rest => '>' :: decodeEntities rest
  | c :: rest => c :: decodeEntities rest
  | [] => []

/-- Split the raw markup into the text segments lying between tags.
The boolean flag records whether the scanner is currently inside a
`<...>` tag (whose characters are discarded). -/
def segsAux : Bool → List Char → List (List Char)
  | _, [] => [[]]
  | false, c :: rest =>
    if c = '<' then [] :: segsAux true rest
    else
      match segsAux false rest with
      | s :: ss => (c :: s) :: ss
      | [] => [[c]]
  | true, c :: rest =>
    if c = '>' then segsAux false rest else segsAux true rest

/-- Model of `BeautifulSoup(raw, "html.parser").get_text(separator=" ",
strip=True)`: tag contents are discarded, entities are decoded, each text
segment is stripped, empty segments are dropped, and the remaining segments
are joined with single spaces. -/
def soupGetText (l : List Char) : List Char :=
  joinSpace (((segsAux false l).map (fun seg => pyStrip (decodeEntities seg))).filter
    (fun seg => seg ≠ []))

/-- `clean_html`: NaN maps to the empty string; otherwise extract the visible
text, replace literal LF/CR by spaces, collapse whitespace runs to single
spaces, delete literal backslash-n sequences, and strip. -/
def clean_html : PyVal → List Char
  | .na => []
  | .str s => pyStrip (removeBackslashN (collapseWs (mapNewlines (soupGetText s))))

/-- Source selection inside `preprocess_description`:
`ai_description if pd.notna(ai_description) else description`. -/
def select_source (ai_description description : PyVal) : PyVal :=
  if notna ai_description then ai_description else description

/-- `preprocess_description`: clean the selected description; if the cleaned
text strips to empty or has fewer than 5 characters, return the empty-string
sentinel; otherwise return `f"{title}: {combined[:1000]}"`. -/
def preprocess_description (ai_description description title : PyVal) : List Char :=
  let combined := clean_html (select_source ai_description description)
  if pyStrip combined = [] ∨ combined.length < 5 then []
  else pyStr title ++ chars ": " ++ combined.take 1000

/-- Outcome of one attempt against the classification service:
a free-text reply, a rate-limit signal (`openai.RateLimitError`),
or any other service error (`openai.OpenAIError`). -/
inductive APIOutcome where
  | success : List Char → APIOutcome
  | rateLimit : APIOutcome
  | apiError : APIOutcome

/-- Observable trace of one call to `get_topics_for_book`: the returned topic
list, the sleeps performed (in seconds, in order), and the number of attempts
made. -/
structure CallTrace where
  result : List (List Char)
  delays : List Nat
  attempts : Nat
deriving DecidableEq

/-- Response handling in `get_topics_for_book`:
`[t.strip() for t in reply.split(",") if t.strip() in topics]`. -/
def filter_reply (reply : List Char) (topics : List (List Char)) : List (List Char) :=
  (splitOnComma reply).filterMap
    (fun t => if pyStrip t ∈ topics then some (pyStrip t) else none)
where
  /-- Python `reply.split(",")`: split on every comma, keeping empty pieces. -/
  splitOnComma : List Char → List (List Char)
    | [] => [[]]
    | c :: rest =>
      if c = ',' then [] :: splitOnComma rest
      else
        match splitOnComma rest with
        | s :: ss => (c :: s) :: ss
        | [] => [[c]]

/-- The retry loop of `get_topics_for_book`, one step per remaining
iteration of `for attempt in range(5)`.  On success the filtered reply is
returned; on a rate limit the code sleeps `min(60, 2 * (attempt + 1))`
seconds and retries; on any other service error the loop breaks and the
empty list is returned. -/
def getTopicsGo (service : Nat → APIOutcome) (topics : List (List Char)) :
    Nat → Nat → CallTrace
  | _, 0 => ⟨[], [], 0⟩
  | attempt, fuel + 1 =>
    match service attempt with
    | .success reply => ⟨filter_reply reply topics, [], 1⟩
    | .rateLimit =>
      let t := getTopicsGo service topics (attempt + 1) fuel
      ⟨t.result, min 60 (2 * (attempt + 1)) :: t.delays, t.attempts + 1⟩
    | .apiError => ⟨[], [], 1⟩

/-- `get_topics_for_book`: up to 5 attempts starting at attempt 0. -/
def get_topics_for_book (service : Nat → APIOutcome) (topics : List (List Char)) :
    CallTrace :=
  getTopicsGo service topics 0 5

/-- An input dataframe row.  `id` is the identifier (a string, as the program
compares it against strings read back from the output CSV); the other three
fields model optional columns: `none` means the column is absent from the
input file, `some v` means the cell holds the pandas scalar `v`. -/
structure Row where
  id : List Char
  title : Option PyVal
  description : Option PyVal
  ai_description : Option PyVal
deriving DecidableEq

/-- `row.get(col, "")`: a missing column yields the default empty string,
a present cell yields its scalar (possibly NaN). -/
def rowGet : Option PyVal → PyVal
  | none => .str []
  | some v => v

/-- One line of the output CSV: the row identifier and the topic list
written for it. -/
structure Record where
  id : List Char
  topics : List (List Char)
deriving DecidableEq

/-- An environment for a run: for each normalized description the sequence
of service outcomes its classification attempts will see. -/
def ServiceEnv : Type := List Char → Nat → APIOutcome

/-- `process_and_write_row`: normalize the row; if the normalized text is the
empty sentinel, skip (no record); otherwise classify and write one record. -/
def process_and_write_row (service : ServiceEnv) (topics : List (List Char))
    (row : Row) : Option Record :=
  let combined := preprocess_description (rowGet row.ai_description)
    (rowGet row.description) (rowGet row.title)
  if combined = [] then none
  else some ⟨row.id, (get_topics_for_book (service combined) topics).result⟩

/-- The write loop of `assign_topics`: process pending rows in order,
appending one record per non-skipped row. -/
def runBatch (service : ServiceEnv) (topics : List (List Char))
    (rows : List Row) : List Record :=
  rows.filterMap (process_and_write_row service topics)

/-- `get_last_processed_id`: the `id` field of the last data row of the
output CSV, or `none` when the file is missing or has no data rows (both
modelled by the empty record list). -/
def get_last_processed_id (records : List Record) : Option (List Char) :=
  records.getLast?.map Record.id

/-- `df[df["id"] == last_processed_id].index[0]`: the position of the FIRST
row whose identifier equals the resume point, if any. -/
def first_index_of_id (df : List Row) (x : List Char) : Option Nat :=
  match df with
  | [] => none
  | r :: rest =>
    if r.id = x then some 0 else (first_index_of_id rest x).map (· + 1)

/-- `resume_from_last_processed`: drop everything up to and including the
first row matching the resume point; if no row matches (`IndexError`),
return the whole dataframe. -/
def resume_from_last_processed (df : List Row) (last_processed_id : List Char) :
    List Row :=
  match first_index_of_id df last_processed_id with
  | some i => df.drop (i + 1)
  | none => df

/-- The resume gate in `assign_topics`: `if last_processed_id:` — resume only
when a last id exists and is truthy (a non-empty string). -/
def pendingRows (df : List Row) (records : List Record) : List Row :=
  match get_last_processed_id records with
  | some lastId => if lastId ≠ [] then resume_from_last_processed df lastId else df
  | none => df

/-- A re-run of `assign_topics` over input `df` with an existing output log
`records`: the list of records appended by this run. -/
def assign_topics (service : ServiceEnv) (topics : List (List Char))
    (df : List Row) (records : List Record) : List Record :=
  runBatch service topics (pendingRows df records)

/-- Modelled from the spec: the response filter described by §4.2 — split the
reply on commas, trim each token, keep exactly the exact (case-sensitive)
members of the vocabulary, order preserved, without deduplication. -/
def spec_token_filter (reply : List Char) (vocabulary : List (List Char)) :
    List (List Char) :=
  ((filter_reply.splitOnComma reply).map pyStrip).filter
    (fun t => decide (t ∈ vocabulary))

/-! ### Lemmas about the string primitives -/

lemma dropWhile_head_false (p : Char → Bool) :
    ∀ (l : List Char) (c : Char) (t : List Char),
      l.dropWhile p = c :: t → p c = false := by
  intro l
  induction l with
  | nil => intro c t h; simp [List.dropWhile] at h
  | cons a l ih =>
    intro c t h
    by_cases hpa : p a
    · rw [List.dropWhile_cons_of_pos hpa] at h
      exact ih c t h
    · rw [List.dropWhile_cons_of_neg hpa] at h
      cases h
      exact Bool.eq_false_iff.mpr hpa

lemma mem_of_mem_dropWhile {p : Char → Bool} {c : Char} {l : List Char}
    (h : c ∈ l.dropWhile p) : c ∈ l := by
  have hsplit : l.takeWhile p ++ l.dropWhile p = l := List.takeWhile_append_dropWhile ..
  rw [← hsplit]
  exact List.mem_append_right _ h

lemma mem_of_mem_pyStrip {c : Char} {l : List Char} (h : c ∈ pyStrip l) : c ∈ l := by
  unfold pyStrip at h
  rw [List.mem_reverse] at h
  have h1 := mem_of_mem_dropWhile h
  rw [List.mem_reverse] at h1
  exact mem_of_mem_dropWhile h1

lemma all_space_of_pyStrip_eq_nil {l : List Char} (h : pyStrip l = []) :
    ∀ c ∈ l, pyIsSpace c = true := by
  unfold pyStrip at h
  rw [List.reverse_eq_nil_iff, List.dropWhile_eq_nil_iff] at h
  intro c hc
  have hsplit : l.takeWhile pyIsSpace ++ l.dropWhile pyIsSpace = l :=
    List.takeWhile_append_dropWhile ..
  rw [← hsplit] at hc
  rcases List.mem_append.mp hc with h1 | h2
  · exact List.mem_takeWhile_imp h1
  · exact h c (List.mem_reverse.mpr h2)

lemma pyStrip_has_nonspace {w : List Char} (h : pyStrip w ≠ []) :
    ∃ c ∈ pyStrip w, pyIsSpace c = false := by
  unfold pyStrip at h ⊢
  rcases hb : (w.dropWhile pyIsSpace).reverse.dropWhile pyIsSpace with _ | ⟨c, t⟩
  · rw [hb] at h; simp at h
  · refine ⟨c, ?_, dropWhile_head_false _ _ _ _ hb⟩
    simp

lemma clean_html_strip_ne {v : PyVal} (h : clean_html v ≠ []) :
    pyStrip (clean_html v) ≠ [] := by
  cases v with
  | na => exact absurd rfl h
  | str s =>
    intro hnil
    obtain ⟨c, hc, hcf⟩ := pyStrip_has_nonspace (w := removeBackslashN
      (collapseWs (mapNewlines (soupGetText s)))) h
    have := all_space_of_pyStrip_eq_nil hnil c hc
    rw [hcf] at this
    cases this

lemma splitWsAux_tokens :
    ∀ (l cur : List Char), (∀ c ∈ cur, pyIsSpace c = false) →
      ∀ t ∈ splitWsAux l cur, ∀ c ∈ t, pyIsSpace c = false := by
  intro l
  induction l with
  | nil =>
    intro cur hcur t ht c hc
    simp only [splitWsAux] at ht
    split at ht
    · simp at ht
    · simp at ht
      subst ht
      exact hcur c (List.mem_reverse.mp hc)
  | cons a l ih =>
    intro cur hcur t ht c hc
    simp only [splitWsAux] at ht
    by_cases hpa : pyIsSpace a
    · rw [if_pos hpa] at ht
      by_cases hc0 : cur = []
      · rw [if_pos hc0] at ht
        exact ih [] (by simp) t ht c hc
      · rw [if_neg hc0] at ht
        rcases List.mem_cons.mp ht with h1 | h2
        · subst h1
          exact hcur c (List.mem_reverse.mp hc)
        · exact ih [] (by simp) t h2 c hc
    · rw [if_neg hpa] at ht
      refine ih (a :: cur) ?_ t ht c hc
      intro d hd
      rcases List.mem_cons.mp hd with h1 | h2
      · subst h1; exact Bool.eq_false_iff.mpr hpa
      · exact hcur d h2

lemma mem_joinSpace :
    ∀ (ts : List (List Char)) (c : Char),
      c ∈ joinSpace ts → c = ' ' ∨ ∃ t ∈ ts, c ∈ t := by
  intro ts
  induction ts with
  | nil => intro c h; simp [joinSpace] at h
  | cons t ts ih =>
    intro c h
    cases ts with
    | nil =>
      simp only [joinSpace] at h
      exact Or.inr ⟨t, by simp, h⟩
    | cons t' ts' =>
      simp only [joinSpace] at h
      rcases List.mem_append.mp h with h1 | h2
      · exact Or.inr ⟨t, by simp, h1⟩
      · rcases List.mem_cons.mp h2 with h3 | h4
        · exact Or.inl h3
        · rcases ih c h4 with h5 | ⟨u, hu, hcu⟩
          · exact Or.inl h5
          · exact Or.inr ⟨u, List.mem_cons_of_mem _ hu, hcu⟩

lemma mem_of_mem_removeBackslashN :
    ∀ (l : List Char) (c : Char), c ∈ removeBackslashN l → c ∈ l := by
  intro l c h
  induction l using removeBackslashN.induct with
  | case1 rest ih =>
    rw [show removeBackslashN ('\\' :: 'n' :: rest) = removeBackslashN rest from rfl] at h
    exact List.mem_cons_of_mem _ (List.mem_cons_of_mem _ (ih h))
  | case2 a rest hne ih =>
    rw [removeBackslashN.eq_def] at h
    split at h
    · rename_i rest1 heq
      cases heq
      exact (hne rest1 rfl rfl).elim
    · rename_i c1 rest1 heq
      cases heq
      rcases List.mem_cons.mp h with h1 | h2
      · simp [h1]
      · exact List.mem_cons_of_mem _ (ih h2)
    · rename_i heq
      cases heq
  | case3 => simp [removeBackslashN] at h

lemma preprocess_of_short {ai description title : PyVal}
    (h : (clean_html (select_source ai description)).length < 5) :
    preprocess_description ai description title = [] := by
  simp only [preprocess_description]
  rw [if_pos (Or.inr h)]

lemma space_not_mem_clean_html {c : Char} (hsp : pyIsSpace c = true) (hne : c ≠ ' ')
    (s : List Char) : c ∉ clean_html (.str s) := by
  intro hmem
  rw [show clean_html (.str s) =
    pyStrip (removeBackslashN (collapseWs (mapNewlines (soupGetText s)))) from rfl] at hmem
  have h1 := mem_of_mem_pyStrip hmem
  have h2 := mem_of_mem_removeBackslashN _ _ h1
  rw [show collapseWs (mapNewlines (soupGetText s)) =
    joinSpace (splitWsAux (mapNewlines (soupGetText s)) []) from rfl] at h2
  rcases mem_joinSpace _ _ h2 with h3 | ⟨t, ht, hct⟩
  · exact hne h3
  · have := splitWsAux_tokens _ [] (by simp) t ht c hct
    rw [hsp] at this
    cases this

/-! ### Evaluation of the pipeline on a run of a plain character

These lemmas compute `clean_html` on `List.replicate n 'a'` for arbitrary
`n`, so that the long-description witness below need not unfold the string
functions over a 1000-element list. -/

lemma segsAux_false_replicate_a (n : Nat) :
    segsAux false (List.replicate n 'a') = [List.replicate n 'a'] := by
  induction n with
  | zero => rfl
  | succ n ih =>
    rw [List.replicate_succ]
    simp only [segsAux]
    rw [if_neg (by decide : ¬ ('a' : Char) = '<')]
    rw [ih]

lemma decodeEntities_replicate_a (n : Nat) :
    decodeEntities (List.replicate n 'a') = List.replicate n 'a' := by
  induction n with
  | zero => rfl
  | succ n ih =>
    rw [List.replicate_succ]
    rw [show decodeEntities ('a' :: List.replicate n 'a') =
      'a' :: decodeEntities (List.replicate n 'a') from rfl]
    rw [ih]

lemma removeBackslashN_replicate_a (n : Nat) :
    removeBackslashN (List.replicate n 'a') = List.replicate n 'a' := by
  induction n with
  | zero => rfl
  | succ n ih =>
    rw [List.replicate_succ]
    rw [show removeBackslashN ('a' :: List.replicate n 'a') =
      'a' :: removeBackslashN (List.replicate n 'a') from rfl]
    rw [ih]

lemma dropWhile_pyIsSpace_replicate_a (n : Nat) :
    List.dropWhile pyIsSpace (List.replicate n 'a') = List.replicate n 'a' := by
  cases n with
  | zero => rfl
  | succ n =>
    rw [List.replicate_succ]
    exact List.dropWhile_cons_of_neg (by decide)

lemma pyStrip_replicate_a (n : Nat) :
    pyStrip (List.replicate n 'a') = List.replicate n 'a' := by
  unfold pyStrip
  rw [dropWhile_pyIsSpace_replicate_a, List.reverse_replicate,
    dropWhile_pyIsSpace_replicate_a, List.reverse_replicate]

lemma splitWsAux_replicate_a (n : Nat) :
    ∀ cur : List Char, splitWsAux (List.replicate n 'a') cur =
      if cur.reverse ++ List.replicate n 'a' = [] then []
      else [cur.reverse ++ List.replicate n 'a'] := by
  induction n with
  | zero =>
    intro cur
    by_cases hc : cur = []
    · subst hc; rfl
    · rw [show (List.replicate 0 'a' : List Char) = [] from rfl]
      rw [show splitWsAux [] cur = if cur = [] then [] else [cur.reverse] from rfl]
      rw [if_neg hc, List.append_nil]
      rw [if_neg (by simp [hc])]
  | succ n ih =>
    intro cur
    rw [List.replicate_succ]
    simp only [splitWsAux]
    rw [if_neg (by decide : ¬ pyIsSpace 'a' = true)]
    rw [ih ('a' :: cur)]
    simp [List.append_assoc]

lemma mapNewlines_replicate_a (n : Nat) :
    mapNewlines (List.replicate n 'a') = List.replicate n 'a' := by
  unfold mapNewlines
  rw [List.map_replicate]
  rw [if_neg (by decide : ¬ (('a' : Char) = '\n' ∨ ('a' : Char) = '\r'))]

lemma soupGetText_replicate_a (n : Nat) :
    soupGetText (List.replicate n 'a') = List.replicate n 'a' := by
  unfold soupGetText
  rw [segsAux_false_replicate_a]
  cases n with
  | zero => rfl
  | succ n =>
    rw [List.map_singleton, decodeEntities_replicate_a, pyStrip_replicate_a]
    rw [List.filter_singleton]
    have hd : (decide (List.replicate (n + 1) 'a' ≠ [])) = true := by
      simp [List.replicate_succ]
    rw [hd]
    rfl

lemma collapseWs_replicate_a (n : Nat) :
    collapseWs (List.replicate n 'a') = List.replicate n 'a' := by
  unfold collapseWs splitWs
  rw [splitWsAux_replicate_a n []]
  cases n with
  | zero => rfl
  | succ n =>
    rw [if_neg (by simp [List.replicate_succ])]
    simp [joinSpace]

lemma clean_html_replicate_a (n : Nat) :
    clean_html (.str (List.replicate n 'a')) = List.replicate n 'a' := by
  rw [show clean_html (.str (List.replicate n 'a')) =
    pyStrip (removeBackslashN (collapseWs (mapNewlines
      (soupGetText (List.replicate n 'a'))))) from rfl]
  rw [soupGetText_replicate_a, mapNewlines_replicate_a, collapseWs_replicate_a,
    removeBackslashN_replicate_a, pyStrip_replicate_a]

/-! ### Claim theorems: normalization (C5, C6, C7, C8) -/

/-- C7 (counterexample): the claim says escaped newline sequences (a literal
backslash-n) are collapsed into single spaces; on input `"a \n b"` (with a
literal backslash) the code instead deletes the backslash-n outright, leaving
two adjacent spaces, so the result is `"a  b"`, not the claimed `"a b"`. -/
theorem clean_html_backslash_n_counterexample :
    clean_html (.str (chars "a \\n b")) = chars "a  b" ∧
    clean_html (.str (chars "a \\n b")) ≠ chars "a b" := by
  constructor
  · decide
  · decide

/-- C7 (amended): cleaning extracts the visible text, collapses whitespace
runs (including literal newlines and carriage returns) into single spaces and
trims, and then deletes literal backslash-n sequences outright (which can
leave two adjacent spaces where such a sequence stood); the result never
contains a literal newline or carriage-return character, and the spec's
markup example normalizes to `"Hello world extra"` with no residual tags. -/
theorem clean_html_normalization (s : List Char) :
    '\n' ∉ clean_html (.str s) ∧ '\r' ∉ clean_html (.str s) ∧
    clean_html (.str (chars "<p>Hello&nbsp;world</p>\n\n  extra")) =
      chars "Hello world extra" :=
  ⟨space_not_mem_clean_html (by decide) (by decide) s,
   space_not_mem_clean_html (by decide) (by decide) s, by decide⟩

/-- C5: whenever the cleaned description has at least 5 characters, the
normalized output is the title, then `": "`, then the cleaned description
capped at 1000 characters; when the cleaned description is longer than 1000
characters the body segment has length exactly 1000, and the title is never
counted against that budget. -/
theorem preprocess_truncation (ai description : PyVal) (t : List Char)
    (h5 : 5 ≤ (clean_html (select_source ai description)).length) :
    preprocess_description ai description (.str t) =
      t ++ chars ": " ++ (clean_html (select_source ai description)).take 1000 ∧
    (1000 < (clean_html (select_source ai description)).length →
      ((clean_html (select_source ai description)).take 1000).length = 1000) := by
  constructor
  · simp only [preprocess_description]
    rw [if_neg]
    · rfl
    · rintro (h1 | h2)
      · refine clean_html_strip_ne ?_ h1
        intro h0
        rw [h0] at h5
        simp at h5
      · omega
  · intro h
    rw [List.length_take]
    omega

/-- C5 (witness): a 1005-character description is truncated to a body of
exactly 1000 characters after the title prefix. -/
theorem preprocess_truncation_witness :
    5 ≤ (clean_html (select_source .na (.str (List.replicate 1005 'a')))).length ∧
    1000 < (clean_html (select_source .na (.str (List.replicate 1005 'a')))).length ∧
    preprocess_description .na (.str (List.replicate 1005 'a')) (.str (chars "Title")) =
      chars "Title" ++ chars ": " ++
        (clean_html (select_source .na (.str (List.replicate 1005 'a')))).take 1000 ∧
    ((clean_html (select_source .na (.str (List.replicate 1005 'a')))).take 1000).length
      = 1000 := by
  have hch : clean_html (select_source .na (.str (List.replicate 1005 'a'))) =
      List.replicate 1005 'a' := by
    rw [show select_source .na (.str (List.replicate 1005 'a')) =
      .str (List.replicate 1005 'a') from rfl]
    exact clean_html_replicate_a 1005
  have h5 : 5 ≤ (clean_html (select_source .na (.str (List.replicate 1005 'a')))).length := by
    rw [hch, List.length_replicate]
    norm_num
  have h1000 : 1000 <
      (clean_html (select_source .na (.str (List.replicate 1005 'a')))).length := by
    rw [hch, List.length_replicate]
    norm_num
  have h := preprocess_truncation .na (.str (List.replicate 1005 'a')) (chars "Title") h5
  exact ⟨h5, h1000, h.1, h.2 h1000⟩

/-- C6 (code bug): a row whose input file has no `ai_description` column but a
perfectly valid `description` is nevertheless skipped: `row.get` defaults the
missing column to the empty string, `pd.notna("")` holds, so the empty
alternate description is preferred over the real description and the cleaned
text is empty.  Had the missing column been treated as an absent (NaN) value,
as the claim states, the description would have been used. -/
theorem missing_column_not_treated_as_absent :
    process_and_write_row (fun _ _ => .apiError) []
      ⟨chars "1", some (.str (chars "T")),
        some (.str (chars "A perfectly valid description")), none⟩ = none ∧
    preprocess_description (rowGet none)
      (.str (chars "A perfectly valid description")) (.str (chars "T")) = [] ∧
    preprocess_description .na
      (.str (chars "A perfectly valid description")) (.str (chars "T")) =
      chars "T: A perfectly valid description" := by
  refine ⟨by decide, by decide, by decide⟩

/-- C8: a row whose cleaned description has fewer than 5 characters (covering
the zero-length case and both description fields absent) makes
`preprocess_description` return the empty-string sentinel rather than raise;
the batch writes no record for it, and the surrounding rows are still
processed. -/
theorem empty_description_skip (service : ServiceEnv) (topics : List (List Char))
    (row : Row) (pre post : List Row)
    (h : (clean_html (select_source (rowGet row.ai_description)
      (rowGet row.description))).length < 5) :
    preprocess_description (rowGet row.ai_description) (rowGet row.description)
      (rowGet row.title) = [] ∧
    process_and_write_row service topics row = none ∧
    runBatch service topics (pre ++ row :: post) =
      runBatch service topics pre ++ runBatch service topics post := by
  have hp : preprocess_description (rowGet row.ai_description) (rowGet row.description)
      (rowGet row.title) = [] := preprocess_of_short h
  have hnone : process_and_write_row service topics row = none := by
    simp only [process_and_write_row, hp]
    rfl
  refine ⟨hp, hnone, ?_⟩
  unfold runBatch
  rw [List.filterMap_append, List.filterMap_cons_none hnone]

/-- C8 (witness): a row with both description fields NaN is skipped while the
rows before and after it are still processed. -/
theorem empty_description_skip_witness :
    (clean_html (select_source (rowGet (some .na)) (rowGet (some .na)))).length < 5 ∧
    process_and_write_row (fun _ _ => .apiError) []
      ⟨chars "2", some (.str (chars "T2")), some .na, some .na⟩ = none ∧
    runBatch (fun _ _ => .apiError) []
      [⟨chars "1", some (.str (chars "T1")), some (.str (chars "hello")), some .na⟩,
       ⟨chars "2", some (.str (chars "T2")), some .na, some .na⟩,
       ⟨chars "3", some (.str (chars "T3")), some (.str (chars "world")), some .na⟩] =
      runBatch (fun _ _ => .apiError) []
        [⟨chars "1", some (.str (chars "T1")), some (.str (chars "hello")), some .na⟩] ++
      runBatch (fun _ _ => .apiError) []
        [⟨chars "3", some (.str (chars "T3")), some (.str (chars "world")), some .na⟩] := by
  have h := empty_description_skip (fun _ _ => .apiError) []
    ⟨chars "2", some (.str (chars "T2")), some .na, some .na⟩
    [⟨chars "1", some (.str (chars "T1")), some (.str (chars "hello")), some .na⟩]
    [⟨chars "3", some (.str (chars "T3")), some (.str (chars "world")), some .na⟩]
    (by decide)
  exact ⟨by decide, h.2.1, h.2.2⟩

/-! ### Lemmas about the retry loop -/

lemma getTopicsGo_attempts_le (service : Nat → APIOutcome) (topics : List (List Char)) :
    ∀ (fuel attempt : Nat), (getTopicsGo service topics attempt fuel).attempts ≤ fuel := by
  intro fuel
  induction fuel with
  | zero => intro attempt; exact Nat.le_refl 0
  | succ f ih =>
    intro attempt
    cases hsvc : service attempt with
    | success reply => simp [getTopicsGo, hsvc]
    | rateLimit =>
      simp only [getTopicsGo, hsvc]
      have := ih (attempt + 1)
      omega
    | apiError => simp [getTopicsGo, hsvc]

lemma getTopicsGo_all_rateLimit (service : Nat → APIOutcome) (topics : List (List Char)) :
    ∀ (fuel attempt : Nat),
      (∀ n, attempt ≤ n → n < attempt + fuel → service n = .rateLimit) →
      (getTopicsGo service topics attempt fuel).result = [] ∧
      (getTopicsGo service topics attempt fuel).attempts = fuel := by
  intro fuel
  induction fuel with
  | zero => intro attempt _; exact ⟨rfl, rfl⟩
  | succ f ih =>
    intro attempt h
    have h0 : service attempt = .rateLimit := h attempt (Nat.le_refl _) (by omega)
    have ht := ih (attempt + 1) (fun n h1 h2 => h n (by omega) (by omega))
    simp only [getTopicsGo, h0]
    exact ⟨ht.1, by rw [ht.2]⟩

lemma getTopicsGo_error_at (service : Nat → APIOutcome) (topics : List (List Char)) :
    ∀ (j fuel attempt : Nat), j < fuel →
      service (attempt + j) = .apiError →
      (∀ i, i < j → service (attempt + i) = .rateLimit) →
      (getTopicsGo service topics attempt fuel).result = [] ∧
      (getTopicsGo service topics attempt fuel).attempts = j + 1 := by
  intro j
  induction j with
  | zero =>
    intro fuel attempt hj he _
    cases fuel with
    | zero => omega
    | succ f =>
      rw [Nat.add_zero] at he
      simp [getTopicsGo, he]
  | succ j ih =>
    intro fuel attempt hj he hrl
    cases fuel with
    | zero => omega
    | succ f =>
      have h0 : service attempt = .rateLimit := by
        have := hrl 0 (by omega)
        rwa [Nat.add_zero] at this
      have ht := ih f (attempt + 1) (by omega)
        (by rw [show attempt + 1 + j = attempt + (j + 1) from by omega]; exact he)
        (fun i hi => by
          rw [show attempt + 1 + i = attempt + (i + 1) from by omega]
          exact hrl (i + 1) (by omega))
      simp only [getTopicsGo, h0]
      exact ⟨ht.1, by rw [ht.2]⟩

lemma getTopicsGo_delay_bounds (service : Nat → APIOutcome) (topics : List (List Char)) :
    ∀ (fuel attempt : Nat), attempt + fuel ≤ 30 →
      ∀ d ∈ (getTopicsGo service topics attempt fuel).delays,
        2 * (attempt + 1) ≤ d ∧ d ≤ 60 := by
  intro fuel
  induction fuel with
  | zero => intro attempt _ d hd; simp [getTopicsGo] at hd
  | succ f ih =>
    intro attempt h d hd
    cases hsvc : service attempt with
    | success reply => simp [getTopicsGo, hsvc] at hd
    | apiError => simp [getTopicsGo, hsvc] at hd
    | rateLimit =>
      simp only [getTopicsGo, hsvc] at hd
      have hmin : min 60 (2 * (attempt + 1)) = 2 * (attempt + 1) := by omega
      rcases List.mem_cons.mp hd with h1 | h2
      · rw [h1, hmin]
        omega
      · have := ih (attempt + 1) (by omega) d h2
        omega

lemma getTopicsGo_delays_chain (service : Nat → APIOutcome) (topics : List (List Char)) :
    ∀ (fuel attempt : Nat), attempt + fuel ≤ 30 →
      List.Chain' (· < ·) (getTopicsGo service topics attempt fuel).delays := by
  intro fuel
  induction fuel with
  | zero => intro attempt _; simp [getTopicsGo]
  | succ f ih =>
    intro attempt h
    cases hsvc : service attempt with
    | success reply => simp [getTopicsGo, hsvc]
    | apiError => simp [getTopicsGo, hsvc]
    | rateLimit =>
      simp only [getTopicsGo, hsvc]
      rw [List.chain'_cons']
      constructor
      · intro y hy
        have hmem : y ∈ (getTopicsGo service topics (attempt + 1) f).delays :=
          List.mem_of_mem_head? hy
        have := getTopicsGo_delay_bounds service topics f (attempt + 1) (by omega) y hmem
        omega
      · exact ih (attempt + 1) (by omega)

lemma filterMap_strip_eq (vocabulary : List (List Char)) :
    ∀ l : List (List Char),
      l.filterMap (fun t => if pyStrip t ∈ vocabulary then some (pyStrip t) else none) =
      (l.map pyStrip).filter (fun t => decide (t ∈ vocabulary)) := by
  intro l
  induction l with
  | nil => rfl
  | cons a l ih =>
    by_cases h : pyStrip a ∈ vocabulary
    · simp [List.filterMap_cons, List.filter_cons, h, ih]
    · simp [List.filterMap_cons, List.filter_cons, h, ih]

lemma runBatch_cons (service : ServiceEnv) (topics : List (List Char))
    (row : Row) (rest : List Row) :
    runBatch service topics (row :: rest) =
      (process_and_write_row service topics row).toList ++ runBatch service topics rest := by
  unfold runBatch
  cases h : process_and_write_row service topics row with
  | none => rw [List.filterMap_cons_none h]; rfl
  | some rec => rw [List.filterMap_cons_some h]; rfl

/-! ### Claim theorems: the classification call (C2, C3, C4, C9) -/

/-- C2 (counterexample): the claim says duplicate tokens are dropped, but the
code keeps every occurrence of a valid token: the reply "Fiction, Fiction"
against vocabulary {Fiction} yields ["Fiction", "Fiction"], which has
duplicates. -/
theorem vocabulary_filter_keeps_duplicates :
    (get_topics_for_book (fun _ => .success (chars "Fiction, Fiction"))
      [chars "Fiction"]).result = [chars "Fiction", chars "Fiction"] ∧
    ¬ ((get_topics_for_book (fun _ => .success (chars "Fiction, Fiction"))
      [chars "Fiction"]).result).Nodup := by
  exact ⟨by decide, by decide⟩

/-- C2 (amended): the classification result is obtained by splitting the
reply on commas, trimming each token, and keeping exactly the tokens that are
exact case-sensitive members of the vocabulary, order preserved and unknown
tokens dropped — duplicates are retained, not dropped; the spec's concrete
example yields exactly ["Fiction", "History"]. -/
theorem vocabulary_filtering (reply : List Char) (vocabulary : List (List Char)) :
    (get_topics_for_book (fun _ => .success reply) vocabulary).result =
      spec_token_filter reply vocabulary ∧
    (get_topics_for_book (fun _ => .success (chars "Fiction, NotARealTopic, History"))
      [chars "Fiction", chars "History", chars "Romance"]).result =
      [chars "Fiction", chars "History"] := by
  constructor
  · show filter_reply reply vocabulary = _
    unfold spec_token_filter filter_reply
    exact filterMap_strip_eq vocabulary _
  · decide

/-- C3 (counterexample): the backoff schedule is 2, 4, 6, 8, 10 — linear, not
exponential: no single growth ratio `r > 1` relates consecutive delays, since
4 = 2·2 but 6 ≠ 2·4. -/
theorem backoff_not_exponential :
    (get_topics_for_book (fun _ => .rateLimit) []).delays = [2, 4, 6, 8, 10] ∧
    ¬ ∃ r : ℚ, 1 < r ∧
      (((get_topics_for_book (fun _ => .rateLimit) []).delays.getD 1 0 : ℚ) =
        r * ((get_topics_for_book (fun _ => .rateLimit) []).delays.getD 0 0 : ℚ)) ∧
      (((get_topics_for_book (fun _ => .rateLimit) []).delays.getD 2 0 : ℚ) =
        r * ((get_topics_for_book (fun _ => .rateLimit) []).delays.getD 1 0 : ℚ)) := by
  have hd : (get_topics_for_book (fun _ => .rateLimit) ([] : List (List Char))).delays
      = [2, 4, 6, 8, 10] := by decide
  refine ⟨hd, ?_⟩
  rintro ⟨r, hr, h1, h2⟩
  rw [hd] at h1 h2
  norm_num [List.getD] at h1 h2
  linarith

/-- C3 (amended): the delay before each retry is `min(60, 2 * (attempt + 1))`
— bounded linear backoff with initial delay 2 and cap 60; in every run the
sequence of delays is strictly increasing and lies in `[2, 60]`, and with a
service stub that always signals rate limiting the delays are exactly
2, 4, 6, 8, 10. -/
theorem backoff_schedule (service : Nat → APIOutcome) (topics : List (List Char)) :
    List.Chain' (· < ·) (get_topics_for_book service topics).delays ∧
    (∀ d ∈ (get_topics_for_book service topics).delays, 2 ≤ d ∧ d ≤ 60) ∧
    (get_topics_for_book (fun _ => .rateLimit) topics).delays = [2, 4, 6, 8, 10] := by
  refine ⟨getTopicsGo_delays_chain service topics 5 0 (by omega), ?_, rfl⟩
  intro d hd
  have := getTopicsGo_delay_bounds service topics 5 0 (by omega) d hd
  omega

/-- C4: the classification call is a total function of the service outcomes
(it never raises to its caller); it makes at most 5 attempts; if all 5
attempts are rate-limited, or a non-retryable service error occurs at some
attempt `k` after `k` rate limits (aborting retrying immediately), it returns
the empty result list; and the batch continues to the next item regardless of
any single row's outcome. -/
theorem classification_failure_signal (service : Nat → APIOutcome)
    (topics : List (List Char)) :
    (get_topics_for_book service topics).attempts ≤ 5 ∧
    ((∀ n, n < 5 → service n = .rateLimit) →
      (get_topics_for_book service topics).result = [] ∧
      (get_topics_for_book service topics).attempts = 5) ∧
    (∀ k, k < 5 → service k = .apiError → (∀ n, n < k → service n = .rateLimit) →
      (get_topics_for_book service topics).result = [] ∧
      (get_topics_for_book service topics).attempts = k + 1) ∧
    (∀ (env : ServiceEnv) (ts : List (List Char)) (row : Row) (rest : List Row),
      runBatch env ts (row :: rest) =
        (process_and_write_row env ts row).toList ++ runBatch env ts rest) := by
  refine ⟨getTopicsGo_attempts_le service topics 5 0, ?_, ?_, ?_⟩
  · intro h
    exact getTopicsGo_all_rateLimit service topics 5 0 (fun n _ h2 => h n (by omega))
  · intro k hk he hrl
    exact getTopicsGo_error_at service topics k 5 0 hk
      (by rwa [Nat.zero_add]) (fun i hi => by rw [Nat.zero_add]; exact hrl i hi)
  · exact runBatch_cons

/-- C4 (witness): with an always-rate-limited service the call returns the
empty list after exactly 5 attempts; with a service that errors on the first
attempt it returns the empty list after exactly 1 attempt. -/
theorem classification_failure_signal_witness :
    (get_topics_for_book (fun _ => .rateLimit) []).result = [] ∧
    (get_topics_for_book (fun _ => .rateLimit) []).attempts = 5 ∧
    (get_topics_for_book (fun _ => .apiError) []).result = [] ∧
    (get_topics_for_book (fun _ => .apiError) []).attempts = 1 := by
  have h1 := (classification_failure_signal (fun _ => .rateLimit) []).2.1
    (fun n _ => rfl)
  have h2 := (classification_failure_signal (fun _ => .apiError) []).2.2.1 0
    (by omega) rfl (fun n hn => absurd hn (Nat.not_lt_zero n))
  exact ⟨h1.1, h1.2, h2.1, h2.2⟩

/-- C9: the 3-to-10 topic range appears only in the instruction text, never
as a check on the response: a reply with no vocabulary token yields 0 topics
(fewer than 3), a reply of 11 vocabulary tokens yields 11 topics (more than
10), and in general the result length is bounded only by the number of
comma-separated tokens in the reply. -/
theorem no_topic_count_enforcement :
    (get_topics_for_book (fun _ => .success (chars "X")) [chars "A"]).result.length < 3 ∧
    10 < (get_topics_for_book (fun _ => .success (chars "A,B,C,D,E,F,G,H,I,J,K"))
      [chars "A", chars "B", chars "C", chars "D", chars "E", chars "F", chars "G",
       chars "H", chars "I", chars "J", chars "K"]).result.length ∧
    ∀ (reply : List Char) (topics : List (List Char)),
      (get_topics_for_book (fun _ => .success reply) topics).result.length ≤
        (filter_reply.splitOnComma reply).length := by
  refine ⟨by decide, by decide, ?_⟩
  intro reply topics
  show (filter_reply reply topics).length ≤ _
  unfold filter_reply
  exact List.length_filterMap_le _ _

/-! ### Lemmas about resume and the batch loop -/

lemma nodup_getElem?_ne {α : Type} :
    ∀ (L : List α), L.Nodup → ∀ (i j : Nat) (x : α),
      i < j → L[j]? = some x → L[i]? ≠ some x := by
  intro L
  induction L with
  | nil => intro _ i j x _ hj; simp at hj
  | cons a tl ih =>
    intro hnd i j x hij hj hi
    cases j with
    | zero => omega
    | succ j =>
      rw [List.getElem?_cons_succ] at hj
      cases i with
      | zero =>
        rw [List.getElem?_cons_zero] at hi
        have ha : a = x := Option.some.inj hi
        have hx : x ∈ tl := List.getElem?_mem hj
        rw [← ha] at hx
        exact (List.nodup_cons.mp hnd).1 hx
      | succ i =>
        rw [List.getElem?_cons_succ] at hi
        exact ih (List.nodup_cons.mp hnd).2 i j x (by omega) hj hi

lemma first_index_of_id_eq_some :
    ∀ (df : List Row) (x : List Char) (i : Nat),
      (df.map Row.id)[i]? = some x →
      (∀ k, k < i → (df.map Row.id)[k]? ≠ some x) →
      first_index_of_id df x = some i := by
  intro df
  induction df with
  | nil => intro x i hi _; simp at hi
  | cons r rest ih =>
    intro x i hi hfirst
    cases i with
    | zero =>
      rw [List.map_cons, List.getElem?_cons_zero] at hi
      have hr : r.id = x := Option.some.inj hi
      simp [first_index_of_id, hr]
    | succ i =>
      have hr : ¬ r.id = x := by
        intro he
        exact hfirst 0 (Nat.succ_pos i) (by simp [he])
      rw [List.map_cons, List.getElem?_cons_succ] at hi
      have hk : ∀ k, k < i → (rest.map Row.id)[k]? ≠ some x := by
        intro k hks hkx
        exact hfirst (k + 1) (by omega)
          (by rw [List.map_cons, List.getElem?_cons_succ]; exact hkx)
      rw [show first_index_of_id (r :: rest) x =
        if r.id = x then some 0 else (first_index_of_id rest x).map (· + 1) from rfl]
      rw [if_neg hr, ih x i hi hk]
      rfl

lemma process_id {service : ServiceEnv} {topics : List (List Char)}
    {row : Row} {rec : Record}
    (h : process_and_write_row service topics row = some rec) : rec.id = row.id := by
  simp only [process_and_write_row] at h
  split at h
  · simp at h
  · rw [← Option.some.inj h]

lemma runBatch_map_id (service : ServiceEnv) (topics : List (List Char)) :
    ∀ rows : List Row,
      (∀ r ∈ rows, (process_and_write_row service topics r).isSome) →
      (runBatch service topics rows).map Record.id = rows.map Row.id := by
  intro rows
  induction rows with
  | nil => intro _; rfl
  | cons r rest ih =>
    intro h
    have h1 : (process_and_write_row service topics r).isSome :=
      h r (List.mem_cons_self r rest)
    obtain ⟨rec, hrec⟩ := Option.isSome_iff_exists.mp h1
    have hid : rec.id = r.id := process_id hrec
    unfold runBatch
    rw [List.filterMap_cons_some hrec]
    rw [List.map_cons, List.map_cons, hid]
    congr 1
    exact ih (fun r' hr' => h r' (List.mem_cons_of_mem _ hr'))

/-! ### Claim theorems: resume (C1, C10) -/

/-- C1: for an output log of N ≥ 1 records whose identifiers are the first N
identifiers of an input of M rows with distinct non-empty identifiers, and
whose pending rows all normalize successfully, a re-run processes exactly the
rows strictly after the row matching the log's last identifier: it appends
exactly M − N records, in input order, one per identifier, none of which is
already present in the log. -/
theorem idempotent_resume (service : ServiceEnv) (topics : List (List Char))
    (df : List Row) (log : List Record)
    (hnd : (df.map Row.id).Nodup)
    (hne : ∀ r ∈ df, r.id ≠ [])
    (hlen : 1 ≤ log.length)
    (hpre : log.map Record.id = (df.map Row.id).take log.length)
    (hvalid : ∀ r ∈ df.drop log.length,
      (process_and_write_row service topics r).isSome) :
    pendingRows df log = df.drop log.length ∧
    (assign_topics service topics df log).length = df.length - log.length ∧
    (assign_topics service topics df log).map Record.id =
      (df.drop log.length).map Row.id ∧
    ∀ a ∈ (assign_topics service topics df log).map Record.id,
      a ∉ log.map Record.id := by
  have hNM : log.length ≤ df.length := by
    have hcl := congrArg List.length hpre
    rw [List.length_map, List.length_take, List.length_map] at hcl
    omega
  have hlt : log.length - 1 < (df.map Row.id).length := by
    rw [List.length_map]; omega
  obtain ⟨x, hx⟩ : ∃ x, (df.map Row.id)[log.length - 1]? = some x :=
    ⟨_, List.getElem?_eq_getElem hlt⟩
  have hgl : get_last_processed_id log = some x := by
    unfold get_last_processed_id
    rw [List.getLast?_eq_getElem?]
    rw [show log[log.length - 1]?.map Record.id =
      (log.map Record.id)[log.length - 1]? from (List.getElem?_map ..).symm]
    rw [hpre, List.getElem?_take, if_pos (by omega)]
    exact hx
  have hxmem : x ∈ df.map Row.id := List.getElem?_mem hx
  have hxne : x ≠ [] := by
    obtain ⟨r, hr, hrid⟩ := List.mem_map.mp hxmem
    rw [← hrid]
    exact hne r hr
  have hfi : first_index_of_id df x = some (log.length - 1) := by
    apply first_index_of_id_eq_some df x (log.length - 1) hx
    intro k hk
    exact nodup_getElem?_ne (df.map Row.id) hnd k (log.length - 1) x hk hx
  have hpend : pendingRows df log = df.drop log.length := by
    unfold pendingRows
    rw [hgl]
    show (if x ≠ [] then resume_from_last_processed df x else df) = df.drop log.length
    rw [if_pos hxne]
    unfold resume_from_last_processed
    rw [hfi]
    show df.drop (log.length - 1 + 1) = df.drop log.length
    congr 1
    omega
  have hmap : (assign_topics service topics df log).map Record.id =
      (df.drop log.length).map Row.id := by
    unfold assign_topics
    rw [hpend]
    exact runBatch_map_id service topics _ hvalid
  refine ⟨hpend, ?_, hmap, ?_⟩
  · have hcl := congrArg List.length hmap
    rw [List.length_map, List.length_map, List.length_drop] at hcl
    omega
  · intro a ha
    rw [hmap] at ha
    rw [hpre]
    have hsplit : (df.map Row.id).take log.length ++ (df.map Row.id).drop log.length
        = df.map Row.id := List.take_append_drop ..
    rw [← hsplit] at hnd
    have hdisj := (List.nodup_append.mp hnd).2.2
    intro hin
    rw [show (df.drop log.length).map Row.id =
      (df.map Row.id).drop log.length from List.map_drop ..] at ha
    exact hdisj hin ha

/-- C1 (witness): with a log holding the record for "a" and an input
a, b, c of valid rows, a re-run processes exactly b and c, in order, and
appends no identifier already present. -/
theorem idempotent_resume_witness :
    pendingRows
      [⟨chars "a", some (.str (chars "T")), some (.str (chars "hello")), some .na⟩,
       ⟨chars "b", some (.str (chars "T")), some (.str (chars "world")), some .na⟩,
       ⟨chars "c", some (.str (chars "T")), some (.str (chars "again")), some .na⟩]
      [⟨chars "a", []⟩] =
      [⟨chars "b", some (.str (chars "T")), some (.str (chars "world")), some .na⟩,
       ⟨chars "c", some (.str (chars "T")), some (.str (chars "again")), some .na⟩] ∧
    (assign_topics (fun _ _ => .apiError) []
      [⟨chars "a", some (.str (chars "T")), some (.str (chars "hello")), some .na⟩,
       ⟨chars "b", some (.str (chars "T")), some (.str (chars "world")), some .na⟩,
       ⟨chars "c", some (.str (chars "T")), some (.str (chars "again")), some .na⟩]
      [⟨chars "a", []⟩]).length = 2 ∧
    (assign_topics (fun _ _ => .apiError) []
      [⟨chars "a", some (.str (chars "T")), some (.str (chars "hello")), some .na⟩,
       ⟨chars "b", some (.str (chars "T")), some (.str (chars "world")), some .na⟩,
       ⟨chars "c", some (.str (chars "T")), some (.str (chars "again")), some .na⟩]
      [⟨chars "a", []⟩]).map Record.id = [chars "b", chars "c"] ∧
    ∀ a ∈ (assign_topics (fun _ _ => .apiError) []
      [⟨chars "a", some (.str (chars "T")), some (.str (chars "hello")), some .na⟩,
       ⟨chars "b", some (.str (chars "T")), some (.str (chars "world")), some .na⟩,
       ⟨chars "c", some (.str (chars "T")), some (.str (chars "again")), some .na⟩]
      [⟨chars "a", []⟩]).map Record.id,
      a ∉ ([⟨chars "a", []⟩] : List Record).map Record.id := by
  have h := idempotent_resume (fun _ _ => .apiError) []
    [⟨chars "a", some (.str (chars "T")), some (.str (chars "hello")), some .na⟩,
     ⟨chars "b", some (.str (chars "T")), some (.str (chars "world")), some .na⟩,
     ⟨chars "c", some (.str (chars "T")), some (.str (chars "again")), some .na⟩]
    [⟨chars "a", []⟩] (by decide) (by decide) (by decide) (by decide) (by decide)
  exact ⟨h.1, h.2.1, h.2.2.1, h.2.2.2⟩

/-- C10: when several input rows carry the resume identifier, the pending set
starts right after the FIRST matching occurrence, not after a later
(duplicate) one. -/
theorem resume_uses_first_match (df : List Row) (x : List Char) (i j : Nat)
    (hij : i < j)
    (hi : (df.map Row.id)[i]? = some x)
    (hfirst : ∀ k, k < i → (df.map Row.id)[k]? ≠ some x)
    (hj : (df.map Row.id)[j]? = some x) :
    resume_from_last_processed df x = df.drop (i + 1) ∧
    resume_from_last_processed df x ≠ df.drop (j + 1) := by
  have hfi : first_index_of_id df x = some i := first_index_of_id_eq_some df x i hi hfirst
  have heq : resume_from_last_processed df x = df.drop (i + 1) := by
    unfold resume_from_last_processed
    rw [hfi]
  have hjlen : j < df.length := by
    by_contra hc
    push_neg at hc
    rw [List.getElem?_eq_none (by rw [List.length_map]; omega)] at hj
    simp at hj
  refine ⟨heq, ?_⟩
  rw [heq]
  intro hdd
  have hlen := congrArg List.length hdd
  rw [List.length_drop, List.length_drop] at hlen
  omega

/-- C10 (witness): with input identifiers a, b, a and resume point "a", the
pending set is everything after the first row, not everything after the
third. -/
theorem resume_uses_first_match_witness :
    resume_from_last_processed
      [⟨chars "a", none, none, none⟩, ⟨chars "b", none, none, none⟩,
       ⟨chars "a", none, none, none⟩] (chars "a") =
      ([⟨chars "a", none, none, none⟩, ⟨chars "b", none, none, none⟩,
        ⟨chars "a", none, none, none⟩] : List Row).drop 1 ∧
    resume_from_last_processed
      [⟨chars "a", none, none, none⟩, ⟨chars "b", none, none, none⟩,
       ⟨chars "a", none, none, none⟩] (chars "a") ≠
      ([⟨chars "a", none, none, none⟩, ⟨chars "b", none, none, none⟩,
        ⟨chars "a", none, none, none⟩] : List Row).drop 3 := by
  have h := resume_uses_first_match
    [⟨chars "a", none, none, none⟩, ⟨chars "b", none, none, none⟩,
     ⟨chars "a", none, none, none⟩] (chars "a") 0 2 (by omega) (by decide)
    (fun k hk => absurd hk (Nat.not_lt_zero k)) (by decide)
  exact h

end TopicsAssigner
